import Mathlib

/-!
Verification development for the MoneyMoney transaction categorizer.

The Python sources are embedded shallowly:
* `cache_manager.py` — an insertion-ordered string-keyed dictionary plus a
  backing file, modelled as `Cache`/`DiskContent`/`CMState`.
* `llm_client.py` — suggestion validation (`validateGo`) and category lookup
  (`findCategoryByPathOrUuid`).
* `category_selector.py` — fuzzy category search (`findMatchingCategories`),
  with the external fuzzywuzzy scorer abstracted as a function argument.
* `moneymoney_client.py` — the uncategorized/booked transaction filters.
* `categorizer.py` — the pre-run, apply-only and cached-review workflows,
  with user interaction modelled as a script of events.

JSON (de)serialization of a JSON-serializable value is modelled as the
identity on the stored dictionary; a corrupt or missing backing file is a
separate `DiskContent` constructor.
-/

/-- Python truthiness of `transaction.get(id)`: `None` and `0` are falsy
(`if not transaction_id: continue`). -/
def pyTruthyId : Option Int → Bool
  | none => false
  | some n => !(n == 0)

/-- `str(transaction.get(id, empty))` from `_run_apply_only`: a missing id
string-coerces to the empty string. -/
def strIdOrEmpty : Option Int → String
  | none => ""
  | some n => toString n

/-- A MoneyMoney transaction, restricted to the fields the embedded code
reads.  Absent dictionary keys are `none`. -/
structure Transaction where
  id : Option Int := none
  name : Option String := none
  category : Option String := none
  booked : Option Bool := none
  bookingDate : Option String := none
  deriving DecidableEq

/-- A flattened leaf category as produced by `_process_indentation_hierarchy`.
`moneymoney_path` is read with `.get` and an empty-string default, so it is
kept optional. -/
structure Category where
  uuid : String
  name : String
  full_name : String
  moneymoney_path : Option String := none
  deriving DecidableEq

/-- A validated suggestion `{category, confidence, reasoning}` as built by
`_parse_suggestions`.  Confidence is carried through unchanged, so a rational
stands in for the Python float. -/
structure Suggestion where
  category : Category
  confidence : Rat
  reasoning : String
  deriving DecidableEq

/-- One raw entry of the decoded `suggestions` array of an LLM response;
each field is read with `.get(key, default)`. -/
structure RawSuggestion where
  category_path : Option String := none
  uuid : Option String := none
  confidence : Option Rat := none
  reasoning : Option String := none
  deriving DecidableEq

/-! ## `cache_manager.py`: the in-memory dictionary -/

/-- The in-memory cache `self._cache`: an insertion-ordered dictionary from
string transaction keys to values (Python dict semantics). -/
abbrev Cache (V : Type) := List (String × V)

/-- `self._cache.get(key)`. -/
def cacheGet {V : Type} (c : Cache V) (k : String) : Option V :=
  (c.find? (fun p => p.1 == k)).map (fun p => p.2)

/-- `self._cache[key] = value`: replace in place when the key is present,
append otherwise (dict update semantics). -/
def cacheInsert {V : Type} (c : Cache V) (k : String) (v : V) : Cache V :=
  match c with
  | [] => [(k, v)]
  | p :: rest => if p.1 == k then (k, v) :: rest else p :: cacheInsert rest k v

/-- `del self._cache[key]`. -/
def cacheRemove {V : Type} (c : Cache V) (k : String) : Cache V :=
  c.filter (fun p => p.1 != k)

/-- `list(self._cache.keys())`. -/
def cacheKeys {V : Type} (c : Cache V) : List String :=
  c.map (fun p => p.1)

/-- `key in self._cache`. -/
def cacheHasKey {V : Type} (c : Cache V) (k : String) : Bool :=
  c.any (fun p => p.1 == k)

/-! ## `cache_manager.py`: the manager with its backing file -/

/-- The content of the backing file: missing, unreadable/non-JSON, or a JSON
document holding a cache dictionary. -/
inductive DiskContent (V : Type) where
  | absent : DiskContent V
  | corrupt : DiskContent V
  | stored : Cache V → DiskContent V
  deriving DecidableEq

/-- A `CacheManager` instance: the file it points at and the in-memory
mirror `self._cache`. -/
structure CMState (V : Type) where
  disk : DiskContent V
  mem : Cache V
  deriving DecidableEq

/-- `CacheManager._load_cache`: a missing file and corrupt/unreadable content
both initialize the cache empty (the exception is caught and logged); valid
JSON loads the stored dictionary. -/
def loadCache {V : Type} : DiskContent V → Cache V
  | .absent => []
  | .corrupt => []
  | .stored c => c

/-- `CacheManager.__init__`: construct an instance pointed at a file with the
given content, loading it. -/
def newCacheManager {V : Type} (d : DiskContent V) : CMState V :=
  ⟨d, loadCache d⟩

/-- `CacheManager.store_suggestions`: key by `str(transaction_id)`, update the
dictionary and write it through to the file (`_save_cache`). -/
def storeSuggestions {V : Type} (st : CMState V) (tid : Int) (sugs : V) : CMState V :=
  let mem := cacheInsert st.mem (toString tid) sugs
  ⟨.stored mem, mem⟩

/-- `CacheManager.get_suggestions`: look up `str(transaction_id)`. -/
def getSuggestions {V : Type} (st : CMState V) (tid : Int) : Option V :=
  cacheGet st.mem (toString tid)

/-- `CacheManager.remove_suggestions`: delete the entry and save when the key
is present, otherwise do nothing. -/
def removeSuggestions {V : Type} (st : CMState V) (tid : Int) : CMState V :=
  if cacheHasKey st.mem (toString tid) then
    let mem := cacheRemove st.mem (toString tid)
    ⟨.stored mem, mem⟩
  else st

/-- `CacheManager.has_suggestions`: `str(transaction_id) in self._cache`. -/
def hasSuggestions {V : Type} (st : CMState V) (tid : Int) : Bool :=
  cacheHasKey st.mem (toString tid)

/-- `CacheManager.get_cached_transaction_ids`. -/
def getCachedTransactionIds {V : Type} (st : CMState V) : List String :=
  cacheKeys st.mem

/-! ## `config.py` defaults -/

def Config.NUM_SUGGESTIONS : Nat := 5

def Config.SEARCH_MIN_CHARS : Nat := 2

def Config.MAX_SEARCH_RESULTS : Nat := 10

def Config.EXCLUDE_PENDING_TRANSACTIONS : Bool := true

/-! ## String containment (Python `needle in hay`) -/

/-- Containment of one character list in another, as the Python `in`
operator on strings: the empty needle is contained in every string. -/
def charsContain (needle : List Char) : List Char → Bool
  | [] => needle.isEmpty
  | c :: rest => needle.isPrefixOf (c :: rest) || charsContain needle rest

/-- Python `needle in hay` on strings. -/
def strContains (hay needle : String) : Bool :=
  charsContain needle.data hay.data

/-! ## `llm_client.py`: category lookup and suggestion validation -/

/-- The exact-match condition tested per category by the first loop of
`_find_category_by_path_or_uuid`: uuid equality, display-path equality, or
secondary-path equality (one disjunction, no priority among the three). -/
def exactCategoryMatch (path uuid : String) (c : Category) : Bool :=
  c.uuid == uuid || c.full_name == path || (c.moneymoney_path.getD "") == path

/-- The fallback condition tested per category by the second loop:
case-insensitive substring containment of the query path in either path
format. -/
def substrCategoryMatch (path : String) (c : Category) : Bool :=
  strContains c.full_name.toLower path.toLower ||
    strContains (c.moneymoney_path.getD "").toLower path.toLower

/-- The first loop of `_find_category_by_path_or_uuid`: return the first
category in list order satisfying the exact-match condition. -/
def findExactLoop (path uuid : String) : List Category → Option Category
  | [] => none
  | c :: cs =>
    if exactCategoryMatch path uuid c then some c else findExactLoop path uuid cs

/-- The second loop: return the first category in list order satisfying the
substring-fallback condition. -/
def findSubstrLoop (path : String) : List Category → Option Category
  | [] => none
  | c :: cs =>
    if substrCategoryMatch path c then some c else findSubstrLoop path cs

/-- `_find_category_by_path_or_uuid`: exact loop first, then the substring
fallback loop, then `None`. -/
def findCategoryByPathOrUuid (categories : List Category) (path uuid : String) :
    Option Category :=
  match findExactLoop path uuid categories with
  | some c => some c
  | none => findSubstrLoop path categories

/-- Lookup as claim C7 words it: exact matches preferring uuid equality over
display-path equality over secondary-path equality across the whole list,
then the substring fallback.  Modelled from the claim text, to be compared
with `findCategoryByPathOrUuid`. -/
def findByIdentifierOrPathClaim (categories : List Category) (path uuid : String) :
    Option Category :=
  match categories.find? (fun c => c.uuid == uuid) with
  | some c => some c
  | none =>
    match categories.find? (fun c => c.full_name == path) with
    | some c => some c
    | none =>
      match categories.find? (fun c => (c.moneymoney_path.getD "") == path) with
      | some c => some c
      | none => categories.find? (fun c => substrCategoryMatch path c)

/-- The suggestion dictionary `_parse_suggestions` appends for a raw entry
resolved to category `c`: confidence defaults to 0.0 and reasoning to the
empty string. -/
def mkSuggestion (r : RawSuggestion) (c : Category) : Suggestion :=
  ⟨c, r.confidence.getD 0, r.reasoning.getD ""⟩

/-- Category resolution of one raw entry: `category_path` and `uuid` are read
with empty-string defaults. -/
def resolveRaw (categories : List Category) (r : RawSuggestion) : Option Category :=
  findCategoryByPathOrUuid categories (r.category_path.getD "") (r.uuid.getD "")

/-- The validation loop of `_parse_suggestions` with its `seen_uuids` set: a
raw entry is kept when it resolves to a category whose uuid was not seen
before. -/
def validateGo (categories : List Category) (seen : List String) :
    List RawSuggestion → List Suggestion
  | [] => []
  | r :: rs =>
    match resolveRaw categories r with
    | some c =>
      if seen.contains c.uuid then validateGo categories seen rs
      else mkSuggestion r c :: validateGo categories (c.uuid :: seen) rs
    | none => validateGo categories seen rs

/-- The validated suggestion list of `_parse_suggestions` for a decoded
response. -/
def validateSuggestions (categories : List Category) (raws : List RawSuggestion) :
    List Suggestion :=
  validateGo categories [] raws

/-- The post-processing of `categorize_transaction`: validate, then truncate
to `Config.NUM_SUGGESTIONS` entries. -/
def categorizeSuggestions (numSuggestions : Nat) (categories : List Category)
    (raws : List RawSuggestion) : List Suggestion :=
  (validateSuggestions categories raws).take numSuggestions

/-! ## `category_selector.py`: fuzzy category search -/

/-- The score `_find_matching_categories` gives one category: the maximum
partial-ratio of the lowercased query against lowercased `full_name` and
`name`.  The fuzzywuzzy scorer is an external library, abstracted as the
argument `fuzzScore`. -/
def matchScore (fuzzScore : String → String → Nat) (queryLower : String)
    (c : Category) : Nat :=
  max (fuzzScore queryLower c.full_name.toLower)
    (fuzzScore queryLower c.name.toLower)

/-- The pre-filter of `_find_matching_categories`: the lowercased query is a
substring of the lowercased `full_name` or of the lowercased `name`. -/
def searchPreFilter (queryLower : String) (c : Category) : Bool :=
  strContains c.full_name.toLower queryLower || strContains c.name.toLower queryLower

/-- The scored match list, each entry tagged with its original list position
(`i`): pre-filter then score, in input order. -/
def scoredMatchesGo (fuzzScore : String → String → Nat) (queryLower : String) :
    Nat → List Category → List (Nat × Category × Nat)
  | _, [] => []
  | i, c :: cs =>
    if searchPreFilter queryLower c then
      (i, c, matchScore fuzzScore queryLower c) :: scoredMatchesGo fuzzScore queryLower (i + 1) cs
    else scoredMatchesGo fuzzScore queryLower (i + 1) cs

def scoredMatches (fuzzScore : String → String → Nat) (categories : List Category)
    (query : String) : List (Nat × Category × Nat) :=
  scoredMatchesGo fuzzScore query.toLower 0 categories

/-- Entry `a` may come before entry `b` after the stable descending sort of
`matches.sort(reverse=True)`: strictly higher score, or equal score and
not-later original position (the position encodes the stability of the
Python sort). -/
def searchRank (a b : Nat × Category × Nat) : Prop :=
  b.2.2 < a.2.2 ∨ (a.2.2 = b.2.2 ∧ a.1 ≤ b.1)

instance : DecidableRel searchRank := fun a b => by
  unfold searchRank; infer_instance

instance : IsTotal (Nat × Category × Nat) searchRank := by
  constructor
  intro a b
  rcases Nat.lt_trichotomy a.2.2 b.2.2 with h | h | h
  · exact Or.inr (Or.inl h)
  · rcases Nat.le_total a.1 b.1 with h1 | h1
    · exact Or.inl (Or.inr ⟨h, h1⟩)
    · exact Or.inr (Or.inr ⟨h.symm, h1⟩)
  · exact Or.inl (Or.inl h)

instance : IsTrans (Nat × Category × Nat) searchRank := by
  constructor
  intro a b c hab hbc
  unfold searchRank at *
  rcases hab with h1 | ⟨h1, h1i⟩ <;> rcases hbc with h2 | ⟨h2, h2i⟩ <;> omega

/-- `_find_matching_categories`: pre-filter, score, stable sort by descending
score, drop the scores, truncate to `maxResults`. -/
def findMatchingCategories (fuzzScore : String → String → Nat) (maxResults : Nat)
    (categories : List Category) (query : String) : List Category :=
  ((List.insertionSort searchRank (scoredMatches fuzzScore categories query)).map
    (fun p => p.2.1)).take maxResults

/-! ## `moneymoney_client.py`: transaction filters -/

/-- The uncategorized test of `get_uncategorized_transactions`: the category
field read with an empty default, kept when falsy or whitespace-only. -/
def isUncategorized (t : Transaction) : Bool :=
  match t.category with
  | none => true
  | some s => s == "" || s.trim == ""

/-- `_is_transaction_booked`: an explicit `booked` flag decides first; with no
flag a present booking date means booked; with neither signal the transaction
is conservatively treated as pending.  (The trailing `return True` of the
source is unreachable for boolean flag values.) -/
def isTransactionBooked (t : Transaction) : Bool :=
  match t.booked with
  | some false => false
  | some true => true
  | none =>
    match t.bookingDate with
    | some _ => true
    | none => false

/-- The filtering part of `get_uncategorized_transactions`: keep uncategorized
transactions, and when pending exclusion is configured also require them to be
booked. -/
def getUncategorizedTransactions (excludePending : Bool)
    (transactions : List Transaction) : List Transaction :=
  let uncategorized := transactions.filter isUncategorized
  if excludePending then uncategorized.filter isTransactionBooked
  else uncategorized

/-! ## `categorizer.py`: workflow coordinator -/

/-- The value type stored by the coordinator in the cache manager. -/
abbrev SuggestionCache := CMState (List Suggestion)

/-- One pass of the `_run_pre_run_only` loop.  Returns the final cache state
and the keys of the transactions for which the suggestion source was called
(`suggest` stands for `categorize_transaction`, which catches its own
exceptions and returns an empty list on failure). -/
def preRunOnly (suggest : Transaction → List Suggestion) (st : SuggestionCache) :
    List Transaction → SuggestionCache × List String
  | [] => (st, [])
  | t :: ts =>
    match t.id with
    | none => preRunOnly suggest st ts
    | some n =>
      if n == 0 then preRunOnly suggest st ts
      else if hasSuggestions st n then preRunOnly suggest st ts
      else
        let sugs := suggest t
        let st1 := if sugs.isEmpty then st else storeSuggestions st n sugs
        let rest := preRunOnly suggest st1 ts
        (rest.1, toString n :: rest.2)

/-- One keypress-level decision of the review loop, as returned by
`get_user_choice`: `quit` is the `None` return, `raiseErr` stands for an
exception escaping the suggestion display or choice handling (caught by the
per-transaction handler of the calling mode). -/
inductive UserEvent where
  | skip
  | back
  | quit
  | raiseErr
  | categorize (c : Category)
  deriving DecidableEq

/-- How `_process_single_transaction_cached` ends for one transaction. -/
inductive ReviewResult where
  | categorized
  | skipped
  | applyFailed
  | errored
  | exited
  | noId
  | testFailed
  | blocked
  deriving DecidableEq

/-- `_apply_categorization`: early False on a falsy id, dry-run reports
success without the side effect, otherwise the boolean result of the platform
call (`set_transaction_category` catches its own exceptions and returns
False). -/
def applyCategorization (dryRun : Bool) (setCategory : Int → String → Bool)
    (t : Transaction) (c : Category) : Bool :=
  match t.id with
  | none => false
  | some n =>
    if n == 0 then false
    else if dryRun then true
    else setCategory n c.full_name

/-- The `while True` choice loop of `_process_single_transaction_cached`,
driven by a script of user events; `n` is the transaction id. -/
def reviewLoop (dryRun : Bool) (setCategory : Int → String → Bool)
    (st : SuggestionCache) (t : Transaction) (n : Int) :
    List UserEvent → ReviewResult × SuggestionCache
  | [] => (.blocked, st)
  | ev :: evs =>
    match ev with
    | .quit => (.exited, st)
    | .raiseErr => (.errored, st)
    | .back => reviewLoop dryRun setCategory st t n evs
    | .skip => (.skipped, removeSuggestions st n)
    | .categorize c =>
      if applyCategorization dryRun setCategory t c then
        (.categorized, removeSuggestions st n)
      else (.applyFailed, st)

/-- `_process_single_transaction_cached`: falsy-id guard, cached-suggestion
lookup, the non-interactive test-mode exit on an empty lookup, then the
review loop. -/
def processSingleTransactionCached (testMode dryRun : Bool)
    (setCategory : Int → String → Bool) (st : SuggestionCache) (t : Transaction)
    (events : List UserEvent) : ReviewResult × SuggestionCache :=
  match t.id with
  | none => (.noId, st)
  | some n =>
    if n == 0 then (.noId, st)
    else
      let sugs := (getSuggestions st n).getD []
      if testMode && sugs.isEmpty then (.testFailed, st)
      else reviewLoop dryRun setCategory st t n events

/-- How `_run_apply_only` leaves its selection stage. -/
inductive ApplyOnlyOutcome where
  | noCachedSuggestions
  | noTransactions
  | emptyIntersection
  | review (ts : List Transaction)
  deriving DecidableEq

/-- The transaction-selection part of `_run_apply_only`: bail out with a
message on an empty cache, an empty fetch, or an empty intersection;
otherwise review the fetched transactions whose string-coerced id is a cached
key. -/
def applyOnlySelect (st : SuggestionCache) (fetched : List Transaction) :
    ApplyOnlyOutcome :=
  let cachedIds := getCachedTransactionIds st
  if cachedIds.isEmpty then .noCachedSuggestions
  else if fetched.isEmpty then .noTransactions
  else
    let cachedTransactions :=
      fetched.filter fun t => cachedIds.contains (strIdOrEmpty t.id)
    if cachedTransactions.isEmpty then .emptyIntersection
    else .review cachedTransactions

/-! ## Concrete fixtures for witnesses and counterexamples -/

def exCatA : Category :=
  ⟨"uuid-a", "Groceries", "Food > Groceries", some "Food\\Groceries"⟩

def exCatB : Category :=
  ⟨"uuid-b", "Restaurants", "Food > Restaurants", some "Food\\Restaurants"⟩

def exRaw1 : RawSuggestion :=
  ⟨some "Food > Groceries", some "uuid-a", some (1 : Rat), some "r1"⟩

def exRaw2 : RawSuggestion :=
  ⟨some "Food > Restaurants", some "uuid-b", some (0 : Rat), some "r2"⟩

def exRaw3 : RawSuggestion :=
  ⟨some "Food > Groceries", some "uuid-a", some (2 : Rat), some "r3"⟩

def exSuggestion : Suggestion := ⟨exCatA, (1 : Rat), "cached"⟩

/-- A cache manager loaded from a file holding one entry for transaction 1. -/
def exState1 : SuggestionCache :=
  newCacheManager (DiskContent.stored [("1", [exSuggestion])])

def exTransaction1 : Transaction := { id := some 1 }

/-- For C7: an earlier category matching the query path exactly. -/
def catPathHit : Category := ⟨"uuid-1", "P", "P", some "P"⟩

/-- For C7: a later category matching the query uuid exactly. -/
def catUuidHit : Category := ⟨"uuid-2", "Other", "Other", some "Other"⟩

def exTransaction2 : Transaction := { id := some 2 }

/-- A raw suggestion with no category path and an unmatched uuid. -/
def exRawNoPath : RawSuggestion := ⟨none, some "zzz", some (0 : Rat), some "nr"⟩

/-- A transaction with no booked flag but a booking date. -/
def exBookedByDate : Transaction := { bookingDate := some "2024-01-02" }

/-! ## Dictionary lemmas -/

theorem cacheGet_cacheInsert_self {V : Type} (c : Cache V) (k : String) (v : V) :
    cacheGet (cacheInsert c k v) k = some v := by
  induction c with
  | nil => simp [cacheInsert, cacheGet]
  | cons p rest ih =>
    by_cases h : p.1 = k
    · simp [cacheInsert, h, cacheGet]
    · simpa [cacheInsert, cacheGet, List.find?, h] using ih

theorem cacheGet_cacheInsert_ne {V : Type} (c : Cache V) {k k' : String} (v : V)
    (h : k' ≠ k) : cacheGet (cacheInsert c k v) k' = cacheGet c k' := by
  have hk : (k == k') = false := by simp [Ne.symm h]
  induction c with
  | nil => simp [cacheInsert, cacheGet, List.find?, hk]
  | cons p rest ih =>
    by_cases hp : p.1 = k
    · simp [cacheInsert, cacheGet, List.find?, hp, hk]
    · have h2 : (p.1 == k) = false := by simp [hp]
      by_cases hp' : p.1 = k'
      · simp [cacheInsert, cacheGet, List.find?, h2, hp', h]
      · have h3 : (p.1 == k') = false := by simp [hp']
        simpa [cacheInsert, cacheGet, List.find?, h2, h3] using ih

theorem cacheGet_cacheRemove_self {V : Type} (c : Cache V) (k : String) :
    cacheGet (cacheRemove c k) k = none := by
  unfold cacheGet cacheRemove
  rw [Option.map_eq_none', List.find?_eq_none]
  intro p hp
  have := (List.mem_filter.mp hp).2
  simp only [bne_iff_ne, ne_eq] at this
  simp [this]

theorem cacheHasKey_iff_get {V : Type} (c : Cache V) (k : String) :
    cacheHasKey c k = true ↔ (cacheGet c k).isSome := by
  unfold cacheHasKey cacheGet
  rw [List.any_eq_true, Option.isSome_map', List.find?_isSome]

theorem getSuggestions_removeSuggestions_self {V : Type} (st : CMState V) (n : Int) :
    getSuggestions (removeSuggestions st n) n = none := by
  unfold removeSuggestions getSuggestions
  by_cases h : cacheHasKey st.mem (toString n) = true
  · simp [h, cacheGet_cacheRemove_self]
  · rw [if_neg h]
    rcases ho : cacheGet st.mem (toString n) with _ | v
    · rfl
    · exact absurd ((cacheHasKey_iff_get st.mem (toString n)).mpr (by simp [ho])) h

/-- Claim C5: storing a suggestion list and reloading a fresh cache manager
from the same file returns exactly the stored list. -/
theorem cache_round_trip {V : Type} (st : CMState V) (tid : Int) (sugs : V) :
    getSuggestions (newCacheManager (storeSuggestions st tid sugs).disk) tid = some sugs := by
  unfold storeSuggestions newCacheManager loadCache getSuggestions
  exact cacheGet_cacheInsert_self st.mem (toString tid) sugs

/-- Claim C6: cache load is total — a missing file and corrupt content both
initialize the cache empty rather than raising — and a store followed by a
get on the degraded instance still succeeds. -/
theorem cache_load_degrades_to_empty {V : Type} (tid : Int) (sugs : V) :
    loadCache (V := V) DiskContent.absent = [] ∧
    loadCache (V := V) DiskContent.corrupt = [] ∧
    getSuggestions (storeSuggestions (newCacheManager (V := V) DiskContent.corrupt) tid sugs) tid
      = some sugs := by
  refine ⟨rfl, rfl, ?_⟩
  unfold storeSuggestions newCacheManager loadCache getSuggestions
  exact cacheGet_cacheInsert_self [] (toString tid) sugs

theorem reviewLoop_cache_spec (dryRun : Bool) (setCategory : Int → String → Bool)
    (st : SuggestionCache) (t : Transaction) (n : Int) (events : List UserEvent) :
    (((reviewLoop dryRun setCategory st t n events).1 = .skipped ∨
        (reviewLoop dryRun setCategory st t n events).1 = .categorized) →
      getSuggestions (reviewLoop dryRun setCategory st t n events).2 n = none) ∧
    (((reviewLoop dryRun setCategory st t n events).1 = .errored ∨
        (reviewLoop dryRun setCategory st t n events).1 = .applyFailed) →
      (reviewLoop dryRun setCategory st t n events).2 = st) := by
  induction events with
  | nil => constructor <;> rintro (h | h) <;> simp [reviewLoop] at h
  | cons ev evs ih =>
    cases ev with
    | back => simpa [reviewLoop] using ih
    | quit => constructor <;> rintro (h | h) <;> simp [reviewLoop] at h
    | raiseErr =>
      constructor
      · rintro (h | h) <;> simp [reviewLoop] at h
      · intro _; rfl
    | skip =>
      constructor
      · intro _; simpa [reviewLoop] using getSuggestions_removeSuggestions_self st n
      · rintro (h | h) <;> simp [reviewLoop] at h
    | categorize c =>
      by_cases hres : applyCategorization dryRun setCategory t c = true
      · constructor
        · intro _
          simpa [reviewLoop, hres] using getSuggestions_removeSuggestions_self st n
        · rintro (h | h) <;> simp [reviewLoop, hres] at h
      · constructor
        · rintro (h | h) <;> simp [reviewLoop, hres] at h
        · intro _; simp [reviewLoop, hres]

/-- Claim C1: during cached interactive review (the loop shared by apply-only
and combined mode), a skip or a successfully applied category leaves the
cache lookup for the transaction id absent, while an error ending (an escaped
exception or a failed apply) leaves the cache state untouched. -/
theorem cached_review_eviction (testMode dryRun : Bool)
    (setCategory : Int → String → Bool) (st : SuggestionCache) (t : Transaction)
    (events : List UserEvent) (n : Int) (hid : t.id = some n) :
    (((processSingleTransactionCached testMode dryRun setCategory st t events).1 = .skipped ∨
        (processSingleTransactionCached testMode dryRun setCategory st t events).1 = .categorized) →
      getSuggestions
        (processSingleTransactionCached testMode dryRun setCategory st t events).2 n = none) ∧
    (((processSingleTransactionCached testMode dryRun setCategory st t events).1 = .errored ∨
        (processSingleTransactionCached testMode dryRun setCategory st t events).1 = .applyFailed) →
      (processSingleTransactionCached testMode dryRun setCategory st t events).2 = st) := by
  by_cases h0 : (n == 0) = true
  · have hred : processSingleTransactionCached testMode dryRun setCategory st t events
        = (.noId, st) := by
      unfold processSingleTransactionCached
      rw [hid]
      simp [h0]
    rw [hred]
    constructor <;> rintro (h | h) <;> simp at h
  · by_cases ht : (testMode && ((getSuggestions st n).getD []).isEmpty) = true
    · have hred : processSingleTransactionCached testMode dryRun setCategory st t events
          = (.testFailed, st) := by
        unfold processSingleTransactionCached
        rw [hid]
        simp only [h0, if_false, Bool.if_false_left]
        simp [ht]
      rw [hred]
      constructor <;> rintro (h | h) <;> simp at h
    · have hred : processSingleTransactionCached testMode dryRun setCategory st t events
          = reviewLoop dryRun setCategory st t n events := by
        unfold processSingleTransactionCached
        rw [hid]
        simp [h0, ht]
      rw [hred]
      exact reviewLoop_cache_spec dryRun setCategory st t n events

/-- Claim C1 witness: skipping transaction 1 evicts its cached entry. -/
theorem cached_review_eviction_witness :
    getSuggestions (processSingleTransactionCached false false (fun _ _ => true) exState1
      exTransaction1 [UserEvent.skip]).2 1 = none :=
  (cached_review_eviction false false (fun _ _ => true) exState1 exTransaction1
      [UserEvent.skip] 1 rfl).1 (Or.inl rfl)

/-- Claim C3: apply-only reviews exactly the fetched transactions whose
string-coerced id is a cached key (set intersection by id, in fetched order),
and an empty intersection ends in the graceful message outcome rather than a
crash. -/
theorem apply_only_intersection (st : SuggestionCache) (fetched : List Transaction) :
    (∀ l, applyOnlySelect st fetched = .review l →
      ∀ t, t ∈ l ↔ t ∈ fetched ∧ strIdOrEmpty t.id ∈ getCachedTransactionIds st) ∧
    (getCachedTransactionIds st ≠ [] → fetched ≠ [] →
      (∀ t ∈ fetched, strIdOrEmpty t.id ∉ getCachedTransactionIds st) →
      applyOnlySelect st fetched = .emptyIntersection) := by
  constructor
  · intro l hl t
    by_cases h1 : (getCachedTransactionIds st).isEmpty = true
    · simp [applyOnlySelect, h1] at hl
    · by_cases h2 : fetched.isEmpty = true
      · simp [applyOnlySelect, h1, h2] at hl
      · by_cases h3 : ∀ a ∈ fetched, strIdOrEmpty a.id ∉ getCachedTransactionIds st
        · simp [applyOnlySelect, h1, h2] at hl
          rw [if_pos h3] at hl
          simp at hl
        · simp [applyOnlySelect, h1, h2, h3] at hl
          subst hl
          simp [List.mem_filter]
  · intro h1 h2 h3
    simp [applyOnlySelect, List.isEmpty_iff, h1, h2]
    exact h3

/-- Claim C3 witness: cache key 1 and a fetched transaction with id 2 have an
empty intersection, and apply-only reports it gracefully. -/
theorem apply_only_intersection_witness :
    applyOnlySelect exState1 [exTransaction2] = ApplyOnlyOutcome.emptyIntersection :=
  (apply_only_intersection exState1 [exTransaction2]).2 (by decide) (by decide)
    (by decide)

theorem findExactLoop_eq (path uuid : String) (cats : List Category) :
    findExactLoop path uuid cats = cats.find? (fun c => exactCategoryMatch path uuid c) := by
  induction cats with
  | nil => rfl
  | cons c cs ih =>
    by_cases h : exactCategoryMatch path uuid c = true
    · rw [findExactLoop, if_pos h, List.find?_cons_of_pos _ h]
    · rw [findExactLoop, if_neg h, List.find?_cons_of_neg _ (by simpa using h), ih]

theorem findSubstrLoop_eq (path : String) (cats : List Category) :
    findSubstrLoop path cats = cats.find? (fun c => substrCategoryMatch path c) := by
  induction cats with
  | nil => rfl
  | cons c cs ih =>
    by_cases h : substrCategoryMatch path c = true
    · rw [findSubstrLoop, if_pos h, List.find?_cons_of_pos _ h]
    · rw [findSubstrLoop, if_neg h, List.find?_cons_of_neg _ (by simpa using h), ih]

/-- Claim C7 (amended): the lookup runs two stages, each returning the first
match in input category-list order — an exact stage whose per-category test
is the plain disjunction of uuid, display-path and secondary-path equality
(no priority among the three kinds), then the case-insensitive substring
fallback — and returns none exactly when no category passes either test. -/
theorem find_category_two_stage (cats : List Category) (path uuid : String) :
    findCategoryByPathOrUuid cats path uuid =
      ((cats.find? (fun c => exactCategoryMatch path uuid c)).orElse
        (fun _ => cats.find? (fun c => substrCategoryMatch path c))) ∧
    (findCategoryByPathOrUuid cats path uuid = none ↔
      ∀ c ∈ cats, exactCategoryMatch path uuid c = false ∧
        substrCategoryMatch path c = false) := by
  have hmain : findCategoryByPathOrUuid cats path uuid =
      ((cats.find? (fun c => exactCategoryMatch path uuid c)).orElse
        (fun _ => cats.find? (fun c => substrCategoryMatch path c))) := by
    unfold findCategoryByPathOrUuid
    rw [findExactLoop_eq, findSubstrLoop_eq]
    rcases h : cats.find? (fun c => exactCategoryMatch path uuid c) with _ | c
    · rfl
    · rfl
  refine ⟨hmain, ?_⟩
  rw [hmain]
  constructor
  · intro h c hc
    rcases he : cats.find? (fun c => exactCategoryMatch path uuid c) with _ | c1
    · rw [he] at h
      simp only [Option.orElse] at h
      rw [List.find?_eq_none] at he h
      exact ⟨by simpa using he c hc, by simpa using h c hc⟩
    · rw [he] at h
      simp [Option.orElse] at h
  · intro h
    have he : cats.find? (fun c => exactCategoryMatch path uuid c) = none := by
      rw [List.find?_eq_none]
      intro c hc
      simp [(h c hc).1]
    have hs : cats.find? (fun c => substrCategoryMatch path c) = none := by
      rw [List.find?_eq_none]
      intro c hc
      simp [(h c hc).2]
    rw [he, hs]
    rfl

/-- Claim C7 counterexample: the claimed uuid-over-path preference fails — a
query whose path exactly matches an earlier category and whose uuid exactly
matches a later one returns the earlier path match, while the lookup worded
as in the claim returns the uuid match. -/
theorem find_category_no_uuid_preference :
    findCategoryByPathOrUuid [catPathHit, catUuidHit] "P" "uuid-2" = some catPathHit ∧
    findByIdentifierOrPathClaim [catPathHit, catUuidHit] "P" "uuid-2" = some catUuidHit ∧
    catPathHit ≠ catUuidHit ∧ catUuidHit.uuid = "uuid-2" ∧ catPathHit.uuid ≠ "uuid-2" := by
  refine ⟨by decide, by decide, by decide, by decide, by decide⟩

/-- Claim C7 witness: on a list with a single exactly-matching category the
two-stage characterization returns that category. -/
theorem find_category_two_stage_witness :
    findCategoryByPathOrUuid [catPathHit] "P" "uuid-1" = some catPathHit :=
  (find_category_two_stage [catPathHit] "P" "uuid-1").1.trans (by decide)

theorem charsContain_nil_needle (hay : List Char) : charsContain [] hay = true := by
  cases hay <;> simp [charsContain, List.isPrefixOf]

theorem substrMatch_empty_path (c : Category) : substrCategoryMatch "" c = true := by
  unfold substrCategoryMatch strContains
  have h : ("".toLower).data = [] := by simp [String.toLower, String.map_eq]
  rw [h]
  simp [charsContain_nil_needle]

/-- Claim C10: with an empty query path and no exact match, the substring
fallback matches every category, so on a non-empty category list the lookup
returns the first category rather than none; hence a raw suggestion with an
unmatched uuid and an absent category path is validated against the first
category instead of being discarded. -/
theorem empty_path_matches_first (c : Category) (rest : List Category)
    (r : RawSuggestion) (hpath : r.category_path = none)
    (hex : findExactLoop "" (r.uuid.getD "") (c :: rest) = none) :
    (∀ c2 : Category, substrCategoryMatch "" c2 = true) ∧
    findCategoryByPathOrUuid (c :: rest) "" (r.uuid.getD "") = some c ∧
    validateSuggestions (c :: rest) [r] = [mkSuggestion r c] := by
  have hfirst : findCategoryByPathOrUuid (c :: rest) "" (r.uuid.getD "") = some c := by
    unfold findCategoryByPathOrUuid
    rw [hex, findSubstrLoop, if_pos (substrMatch_empty_path c)]
  refine ⟨substrMatch_empty_path, hfirst, ?_⟩
  have hres : resolveRaw (c :: rest) r = some c := by
    unfold resolveRaw
    rw [hpath]
    simpa using hfirst
  simp [validateSuggestions, validateGo, hres]

/-- Claim C10 witness: a raw suggestion with uuid zzz and no path validates
against the first of two concrete categories. -/
theorem empty_path_matches_first_witness :
    findCategoryByPathOrUuid [exCatA, exCatB] "" (exRawNoPath.uuid.getD "")
      = some exCatA :=
  (empty_path_matches_first exCatA [exCatB] exRawNoPath rfl (by decide)).2.1

/-- Claim C9: a fetched transaction is kept as uncategorized exactly when its
category field is missing, empty or whitespace-only; with pending exclusion
enabled the booked decision runs in order — an explicit False flag excludes,
an explicit True flag includes, with no flag a present booking date includes,
and with neither signal the transaction is conservatively excluded — and the
fetch keeps exactly the uncategorized booked transactions. -/
theorem uncategorized_booked_filter (ts : List Transaction) (t : Transaction) :
    (isUncategorized t = true ↔
      (t.category = none ∨ ∃ s, t.category = some s ∧ (s = "" ∨ s.trim = ""))) ∧
    (t.booked = some false → isTransactionBooked t = false) ∧
    (t.booked = some true → isTransactionBooked t = true) ∧
    (t.booked = none → t.bookingDate ≠ none → isTransactionBooked t = true) ∧
    (t.booked = none → t.bookingDate = none → isTransactionBooked t = false) ∧
    (t ∈ getUncategorizedTransactions true ts ↔
      t ∈ ts ∧ isUncategorized t = true ∧ isTransactionBooked t = true) := by
  refine ⟨?_, ?_, ?_, ?_, ?_, ?_⟩
  · rcases hc : t.category with _ | s
    · simp [isUncategorized, hc]
    · simp [isUncategorized, hc]
  · intro hb; simp [isTransactionBooked, hb]
  · intro hb; simp [isTransactionBooked, hb]
  · intro hb hd
    rcases hdd : t.bookingDate with _ | d
    · exact absurd hdd hd
    · simp [isTransactionBooked, hb, hdd]
  · intro hb hd; simp [isTransactionBooked, hb, hd]
  · unfold getUncategorizedTransactions
    simp [List.mem_filter, and_assoc]
    tauto

/-- Claim C9 witness: a transaction with no booked flag but a booking date is
treated as booked. -/
theorem uncategorized_booked_filter_witness :
    isTransactionBooked exBookedByDate = true :=
  (uncategorized_booked_filter [] exBookedByDate).2.2.2.1 rfl (by decide)

theorem preRunOnly_preserves (suggest : Transaction → List Suggestion) :
    ∀ (ts : List Transaction) (st : SuggestionCache) (k : String),
      cacheHasKey st.mem k = true →
      cacheGet (preRunOnly suggest st ts).1.mem k = cacheGet st.mem k ∧
      k ∉ (preRunOnly suggest st ts).2 := by
  intro ts
  induction ts with
  | nil => intro st k hk; exact ⟨rfl, by simp [preRunOnly]⟩
  | cons t ts ih =>
    intro st k hk
    rcases hid : t.id with _ | n
    · simpa only [preRunOnly, hid] using ih st k hk
    · by_cases h0 : (n == 0) = true
      · simp only [preRunOnly, hid]
        rw [if_pos h0]
        exact ih st k hk
      · by_cases hc : hasSuggestions st n = true
        · simp only [preRunOnly, hid]
          rw [if_neg h0, if_pos hc]
          exact ih st k hk
        · have hne : k ≠ toString n := by
            intro e
            rw [e] at hk
            exact hc hk
          simp only [preRunOnly, hid]
          rw [if_neg h0, if_neg hc]
          by_cases he : (suggest t).isEmpty = true
          · rw [if_pos he]
            have h := ih st k hk
            exact ⟨h.1, by
              simp only [List.mem_cons, not_or]
              exact ⟨hne, h.2⟩⟩
          · rw [if_neg he]
            have hget : cacheGet (storeSuggestions st n (suggest t)).mem k
                = cacheGet st.mem k := by
              unfold storeSuggestions
              exact cacheGet_cacheInsert_ne st.mem (suggest t) hne
            have hk1 : cacheHasKey (storeSuggestions st n (suggest t)).mem k = true := by
              rw [cacheHasKey_iff_get, hget, ← cacheHasKey_iff_get]
              exact hk
            have h := ih (storeSuggestions st n (suggest t)) k hk1
            refine ⟨h.1.trans hget, ?_⟩
            simp only [List.mem_cons, not_or]
            exact ⟨hne, h.2⟩

theorem preRunOnly_covered (suggest : Transaction → List Suggestion) :
    ∀ (ts : List Transaction) (st : SuggestionCache) (t : Transaction) (n : Int),
      t ∈ ts → t.id = some n → (n == 0) = false →
      hasSuggestions (preRunOnly suggest st ts).1 n = true ∨
        (suggest t).isEmpty = true := by
  intro ts
  induction ts with
  | nil => intro st t n ht; exact absurd ht (List.not_mem_nil t)
  | cons u ts ih =>
    intro st t n ht hid h0
    rcases List.mem_cons.mp ht with he | hmem
    · subst he
      simp only [preRunOnly, hid]
      rw [if_neg (by simp [h0])]
      by_cases hc : hasSuggestions st n = true
      · rw [if_pos hc]
        left
        have := (preRunOnly_preserves suggest ts st (toString n) hc).1
        unfold hasSuggestions
        rw [cacheHasKey_iff_get, this, ← cacheHasKey_iff_get]
        exact hc
      · rw [if_neg hc]
        by_cases he2 : (suggest t).isEmpty = true
        · exact Or.inr he2
        · rw [if_neg he2]
          left
          have hself : cacheGet (storeSuggestions st n (suggest t)).mem (toString n)
              = some (suggest t) := by
            unfold storeSuggestions
            exact cacheGet_cacheInsert_self st.mem (toString n) (suggest t)
          have hk1 : cacheHasKey (storeSuggestions st n (suggest t)).mem (toString n)
              = true := by
            rw [cacheHasKey_iff_get, hself]
            rfl
          have := (preRunOnly_preserves suggest ts
            (storeSuggestions st n (suggest t)) (toString n) hk1).1
          unfold hasSuggestions
          rw [cacheHasKey_iff_get, this, hself]
          rfl
    · rcases hidu : u.id with _ | m
      · simp only [preRunOnly, hidu]
        exact ih st t n hmem hid h0
      · by_cases hm0 : (m == 0) = true
        · simp only [preRunOnly, hidu]
          rw [if_pos hm0]
          exact ih st t n hmem hid h0
        · by_cases hcu : hasSuggestions st m = true
          · simp only [preRunOnly, hidu]
            rw [if_neg hm0, if_pos hcu]
            exact ih st t n hmem hid h0
          · simp only [preRunOnly, hidu]
            rw [if_neg hm0, if_neg hcu]
            by_cases heu : (suggest u).isEmpty = true
            · rw [if_pos heu]
              exact ih st t n hmem hid h0
            · rw [if_neg heu]
              exact ih (storeSuggestions st m (suggest u)) t n hmem hid h0

theorem preRunOnly_stable (suggest : Transaction → List Suggestion) :
    ∀ (ts : List Transaction) (st : SuggestionCache),
      (∀ t ∈ ts, ∀ n : Int, t.id = some n → (n == 0) = false →
        hasSuggestions st n = true ∨ (suggest t).isEmpty = true) →
      (preRunOnly suggest st ts).1 = st := by
  intro ts
  induction ts with
  | nil => intro st _; rfl
  | cons t ts ih =>
    intro st hcond
    have htail : ∀ u ∈ ts, ∀ n : Int, u.id = some n → (n == 0) = false →
        hasSuggestions st n = true ∨ (suggest u).isEmpty = true :=
      fun u hu => hcond u (List.mem_cons_of_mem t hu)
    rcases hid : t.id with _ | n
    · simp only [preRunOnly, hid]
      exact ih st htail
    · by_cases h0 : (n == 0) = true
      · simp only [preRunOnly, hid]
        rw [if_pos h0]
        exact ih st htail
      · by_cases hc : hasSuggestions st n = true
        · simp only [preRunOnly, hid]
          rw [if_neg h0, if_pos hc]
          exact ih st htail
        · have he : (suggest t).isEmpty = true := by
            rcases hcond t (List.mem_cons_self t ts) n hid (by simpa using h0) with h | h
            · exact absurd h hc
            · exact h
          simp only [preRunOnly, hid]
          rw [if_neg h0, if_neg hc, if_pos he]
          exact ih st htail

/-- Claim C2: pre-run makes no suggestion-source call for an already-cached
transaction id and leaves its entry unchanged, and it is idempotent: a second
pass over the same transactions (deterministic source, no intervening
categorization) returns the cache of the first pass unchanged and calls the
source for no id cached after the first pass. -/
theorem pre_run_idempotent (suggest : Transaction → List Suggestion)
    (st : SuggestionCache) (ts : List Transaction) :
    (∀ n : Int, hasSuggestions st n = true →
      getSuggestions (preRunOnly suggest st ts).1 n = getSuggestions st n ∧
      toString n ∉ (preRunOnly suggest st ts).2) ∧
    (preRunOnly suggest (preRunOnly suggest st ts).1 ts).1 =
      (preRunOnly suggest st ts).1 ∧
    (∀ n : Int, hasSuggestions (preRunOnly suggest st ts).1 n = true →
      toString n ∉ (preRunOnly suggest (preRunOnly suggest st ts).1 ts).2) := by
  refine ⟨?_, ?_, ?_⟩
  · intro n hn
    exact preRunOnly_preserves suggest ts st (toString n) hn
  · apply preRunOnly_stable
    intro t ht n hid h0
    exact preRunOnly_covered suggest ts st t n ht hid h0
  · intro n hn
    exact (preRunOnly_preserves suggest ts (preRunOnly suggest st ts).1
      (toString n) hn).2

/-- Claim C2 witness: an already-cached transaction id triggers no
suggestion-source call during pre-run. -/
theorem pre_run_idempotent_witness :
    toString (1 : Int) ∉ (preRunOnly (fun _ => []) exState1 [exTransaction1]).2 :=
  ((pre_run_idempotent (fun _ => []) exState1 [exTransaction1]).1 1 (by decide)).2

theorem validateGo_uuid_not_seen (categories : List Category) :
    ∀ (rs : List RawSuggestion) (seen : List String) (s : Suggestion),
      s ∈ validateGo categories seen rs → s.category.uuid ∉ seen := by
  intro rs
  induction rs with
  | nil => intro seen s hs; simp [validateGo] at hs
  | cons r rs ih =>
    intro seen s hs
    rcases hres : resolveRaw categories r with _ | c
    · simp only [validateGo, hres] at hs
      exact ih seen s hs
    · simp only [validateGo, hres] at hs
      by_cases hseen : seen.contains c.uuid = true
      · rw [if_pos hseen] at hs
        exact ih seen s hs
      · rw [if_neg hseen] at hs
        rcases List.mem_cons.mp hs with he | hmem
        · subst he
          simpa [mkSuggestion] using hseen
        · have h := ih (c.uuid :: seen) s hmem
          exact fun hin => h (List.mem_cons_of_mem _ hin)

theorem validateGo_uuid_nodup (categories : List Category) :
    ∀ (rs : List RawSuggestion) (seen : List String),
      ((validateGo categories seen rs).map (fun s => s.category.uuid)).Nodup := by
  intro rs
  induction rs with
  | nil => intro seen; simp [validateGo]
  | cons r rs ih =>
    intro seen
    rcases hres : resolveRaw categories r with _ | c
    · simp only [validateGo, hres]
      exact ih seen
    · simp only [validateGo, hres]
      by_cases hseen : seen.contains c.uuid = true
      · rw [if_pos hseen]
        exact ih seen
      · rw [if_neg hseen]
        simp only [List.map_cons, List.nodup_cons]
        refine ⟨?_, ih (c.uuid :: seen)⟩
        intro hmem
        rcases List.mem_map.mp hmem with ⟨s, hsmem, hsu⟩
        have hne := validateGo_uuid_not_seen categories rs (c.uuid :: seen) s hsmem
        rw [hsu] at hne
        exact hne (by simp [mkSuggestion])

theorem validateGo_first_encountered (categories : List Category) :
    ∀ (rs : List RawSuggestion) (seen : List String) (s : Suggestion),
      s ∈ validateGo categories seen rs →
      ∃ r, rs.find? (fun r2 =>
          (resolveRaw categories r2).map Category.uuid == some s.category.uuid)
          = some r ∧
        resolveRaw categories r = some s.category ∧ s = mkSuggestion r s.category := by
  intro rs
  induction rs with
  | nil => intro seen s hs; simp [validateGo] at hs
  | cons r rs ih =>
    intro seen s hs
    rcases hres : resolveRaw categories r with _ | c
    · simp only [validateGo, hres] at hs
      obtain ⟨r1, hfind, hrest⟩ := ih seen s hs
      refine ⟨r1, ?_, hrest⟩
      rw [List.find?_cons_of_neg _ (by simp [hres]), hfind]
    · simp only [validateGo, hres] at hs
      by_cases hseen : seen.contains c.uuid = true
      · rw [if_pos hseen] at hs
        obtain ⟨r1, hfind, hrest⟩ := ih seen s hs
        have hne : c.uuid ≠ s.category.uuid := by
          have h := validateGo_uuid_not_seen categories rs seen s hs
          intro he
          rw [← he] at h
          exact h (by simpa using hseen)
        refine ⟨r1, ?_, hrest⟩
        rw [List.find?_cons_of_neg _ (by simp [hres, hne]), hfind]
      · rw [if_neg hseen] at hs
        rcases List.mem_cons.mp hs with he | hmem
        · subst he
          refine ⟨r, ?_, ?_, ?_⟩
          · rw [List.find?_cons_of_pos _ (by simp [hres, mkSuggestion])]
          · simpa [mkSuggestion] using hres
          · simp [mkSuggestion]
        · obtain ⟨r1, hfind, hrest⟩ := ih (c.uuid :: seen) s hmem
          have hne : c.uuid ≠ s.category.uuid := by
            have h := validateGo_uuid_not_seen categories rs (c.uuid :: seen) s hmem
            intro he
            rw [← he] at h
            exact h (List.mem_cons_self _ _)
          refine ⟨r1, ?_, hrest⟩
          rw [List.find?_cons_of_neg _ (by simp [hres, hne]), hfind]

/-- Claim C4: the validated suggestion list has at most one entry per
category uuid; when several raw entries resolve to the same category, the
first-encountered one is the entry retained, with its confidence and
reasoning; the final list is truncated to the configured maximum; and the
concrete batch of 3 raw entries over 2 unique category uuids with maximum 5
validates to exactly 2 suggestions. -/
theorem duplicate_suppression (categories : List Category)
    (raws : List RawSuggestion) (numSuggestions : Nat) :
    ((validateSuggestions categories raws).map (fun s => s.category.uuid)).Nodup ∧
    (∀ s ∈ validateSuggestions categories raws,
      ∃ r, raws.find? (fun r2 =>
          (resolveRaw categories r2).map Category.uuid == some s.category.uuid)
          = some r ∧
        resolveRaw categories r = some s.category ∧ s = mkSuggestion r s.category) ∧
    (categorizeSuggestions numSuggestions categories raws
      = (validateSuggestions categories raws).take numSuggestions) ∧
    (categorizeSuggestions numSuggestions categories raws).length ≤ numSuggestions ∧
    (categorizeSuggestions Config.NUM_SUGGESTIONS [exCatA, exCatB]
      [exRaw1, exRaw2, exRaw3]).length = 2 := by
  refine ⟨validateGo_uuid_nodup categories raws [],
    validateGo_first_encountered categories raws [], rfl, ?_, ?_⟩
  · unfold categorizeSuggestions
    exact List.length_take_le numSuggestions _
  · decide

/-- Claim C4 witness: the first raw entry for uuid-a is the one retained. -/
theorem duplicate_suppression_witness :
    ∃ r, [exRaw1, exRaw2, exRaw3].find? (fun r2 =>
        (resolveRaw [exCatA, exCatB] r2).map Category.uuid
          == some ((mkSuggestion exRaw1 exCatA).category.uuid)) = some r ∧
      resolveRaw [exCatA, exCatB] r = some (mkSuggestion exRaw1 exCatA).category ∧
      mkSuggestion exRaw1 exCatA
        = mkSuggestion r (mkSuggestion exRaw1 exCatA).category :=
  (duplicate_suppression [exCatA, exCatB] [exRaw1, exRaw2, exRaw3] 5).2.1
    (mkSuggestion exRaw1 exCatA) (by decide)

theorem scoredMatchesGo_map (fuzzScore : String → String → Nat)
    (queryLower : String) :
    ∀ (cats : List Category) (i : Nat),
      (scoredMatchesGo fuzzScore queryLower i cats).map (fun p => p.2.1)
        = cats.filter (fun c => searchPreFilter queryLower c) := by
  intro cats
  induction cats with
  | nil => intro i; rfl
  | cons c cs ih =>
    intro i
    by_cases h : searchPreFilter queryLower c = true
    · rw [scoredMatchesGo, if_pos h, List.map_cons, List.filter_cons_of_pos h, ih]
    · rw [scoredMatchesGo, if_neg h, List.filter_cons_of_neg h, ih]

/-- Claim C8: category search pre-filters to the categories whose lowercase
name or full name contains the lowercase query, scores each by the maximum
partial-ratio against both, orders by descending score with ties keeping the
original list order (the sort relation `searchRank` over position-tagged
entries), truncates to the configured maximum, and returns the empty list on
an empty category set. -/
theorem search_ranking (fuzzScore : String → String → Nat) (maxResults : Nat)
    (categories : List Category) (query : String) :
    (findMatchingCategories fuzzScore maxResults [] query = []) ∧
    (findMatchingCategories fuzzScore maxResults categories query).length
      ≤ maxResults ∧
    (∀ c ∈ findMatchingCategories fuzzScore maxResults categories query,
      c ∈ categories ∧ searchPreFilter query.toLower c = true) ∧
    ((List.insertionSort searchRank
        (scoredMatches fuzzScore categories query)).map (fun p => p.2.1)).Perm
      (categories.filter (fun c => searchPreFilter query.toLower c)) ∧
    (List.insertionSort searchRank
      (scoredMatches fuzzScore categories query)).Pairwise searchRank := by
  have heq : (scoredMatches fuzzScore categories query).map (fun p => p.2.1)
      = categories.filter (fun c => searchPreFilter query.toLower c) := by
    unfold scoredMatches
    exact scoredMatchesGo_map fuzzScore query.toLower categories 0
  refine ⟨by simp [findMatchingCategories, scoredMatches, scoredMatchesGo], ?_, ?_, ?_, ?_⟩
  · unfold findMatchingCategories
    exact List.length_take_le maxResults _
  · intro c hc
    unfold findMatchingCategories at hc
    have h1 := List.take_subset maxResults _ hc
    have hperm := (List.perm_insertionSort searchRank
      (scoredMatches fuzzScore categories query)).map (fun p => p.2.1)
    have h2 := hperm.mem_iff.mp h1
    rw [heq] at h2
    exact List.mem_filter.mp h2
  · rw [← heq]
    exact (List.perm_insertionSort searchRank _).map _
  · exact List.sorted_insertionSort searchRank _

/-- Claim C8 witness: with the empty query every category passes the
pre-filter, so the single concrete category is returned and satisfies the
membership characterization. -/
theorem search_ranking_witness :
    exCatA ∈ [exCatA] ∧ searchPreFilter "".toLower exCatA = true := by
  have hlow : ("".toLower).data = [] := by simp [String.toLower, String.map_eq]
  have hsp : ∀ c : Category, searchPreFilter "".toLower c = true := by
    intro c
    unfold searchPreFilter strContains
    rw [hlow]
    simp [charsContain_nil_needle]
  have hlist : findMatchingCategories (fun _ _ => 0) 10 [exCatA] "" = [exCatA] := by
    unfold findMatchingCategories scoredMatches
    rw [scoredMatchesGo, if_pos (hsp exCatA)]
    rw [scoredMatchesGo]
    simp [List.insertionSort, List.orderedInsert]
  exact (search_ranking (fun _ _ => 0) 10 [exCatA] "").2.2.1 exCatA
    (by rw [hlist]; exact List.mem_cons_self _ _)
